import Mathlib

/-!
Verification of the fixed-capacity memory pool allocator
(`mem_init` / `mem_alloc` / `mem_free` / `mem_resize` / `mem_deinit`).

The C implementation keeps a singly linked chain of block descriptors
`MemBlock { offset, size, is_free, next }` over a contiguous pool.  We embed
the chain as a `List MemBlock` (list order = chain order), the pool contents
as a function `Nat → Nat` (byte value at each offset), and pointers returned
to callers as `Option Nat` (`none` = NULL, `some off` = `memory_pool + off`).

The internal `malloc(sizeof(MemBlock))` for a split-off descriptor may fail;
each operation takes a boolean `ok` telling whether that metadata allocation
succeeds (at most one such `malloc` happens per call, so one flag per call
captures all behaviours).
-/

/-- Block descriptor, embedded from `struct MemBlock` (offset, size, free flag);
the `next` pointer becomes list structure. -/
structure MemBlock where
  offset : Nat
  size : Nat
  is_free : Bool
deriving DecidableEq, Repr

/-- The allocator's global state: `memory_pool` is `true` when the pool pointer
is non-NULL, `pool_size` mirrors the C global, `block_list` is the descriptor
chain in chain order, and `mem` gives the byte stored at each pool offset. -/
structure MMState where
  memory_pool : Bool
  pool_size : Nat
  block_list : List MemBlock
  mem : Nat → Nat

/-- State before `mem_init` was ever called: all globals are NULL/zero. -/
def initialState (m0 : Nat → Nat) : MMState :=
  { memory_pool := false, pool_size := 0, block_list := [], mem := m0 }

/-- `mem_init(size)`: pool allocated (the fatal-exit branches are the ones
where the process terminates, so the resulting state is the success state),
one free descriptor covering the whole pool.  `m0` is the arbitrary initial
content of the freshly `malloc`ed pool. -/
def mem_init (size : Nat) (m0 : Nat → Nat) : MMState :=
  { memory_pool := true, pool_size := size,
    block_list := [⟨0, size, true⟩], mem := m0 }

/-- The first-fit search loop of `mem_alloc`: find the first free block with
`size ≥ n`, mark it allocated, and split it when it is strictly larger and the
descriptor `malloc` succeeds (`ok`); on `malloc` failure the whole block is
granted unsplit.  Returns the chosen offset and the updated chain. -/
def allocLoop (ok : Bool) (n : Nat) : List MemBlock → Option (Nat × List MemBlock)
  | [] => none
  | b :: rest =>
    if b.is_free = true ∧ n ≤ b.size then
      if n < b.size ∧ ok = true then
        some (b.offset, ⟨b.offset, n, false⟩ :: ⟨b.offset + n, b.size - n, true⟩ :: rest)
      else
        some (b.offset, ⟨b.offset, b.size, false⟩ :: rest)
    else
      match allocLoop ok n rest with
      | none => none
      | some (r, rest') => some (r, b :: rest')

/-- `mem_alloc(size)`: size 0 returns the pool base pointer (NULL when the
pool is NULL); otherwise first-fit search, returning NULL when no free block
is large enough. -/
def mem_alloc (ok : Bool) (n : Nat) (st : MMState) : Option Nat × MMState :=
  if n = 0 then
    (if st.memory_pool = true then some 0 else none, st)
  else
    match allocLoop ok n st.block_list with
    | none => (none, st)
    | some (off, bl) => (some off, { st with block_list := bl })

/-- Forward coalescing step of `mem_free`: merge the (just freed) block `c`
with the following block when that one is free and contiguous. -/
def fwdCoalesce (c : MemBlock) : List MemBlock → List MemBlock
  | [] => [c]
  | d :: rest =>
    if d.is_free = true ∧ c.offset + c.size = d.offset then
      ⟨c.offset, c.size + d.size, c.is_free⟩ :: rest
    else c :: d :: rest

/-- The search/coalesce loop of `mem_free`: find the first descriptor whose
offset matches, mark it free, merge forward then backward (the backward merge
uses the previous node, hence the two-cell pattern). -/
def freeLoop (off : Nat) : List MemBlock → List MemBlock
  | [] => []
  | [b] => if b.offset = off then [⟨b.offset, b.size, true⟩] else [b]
  | b :: c :: rest =>
    if b.offset = off then
      fwdCoalesce ⟨b.offset, b.size, true⟩ (c :: rest)
    else if c.offset = off then
      match fwdCoalesce ⟨c.offset, c.size, true⟩ rest with
      | cur :: tail =>
        if b.is_free = true ∧ b.offset + b.size = cur.offset then
          ⟨b.offset, b.size + cur.size, b.is_free⟩ :: tail
        else b :: cur :: tail
      | [] => [b]
    else
      b :: freeLoop off (c :: rest)

/-- `mem_free(ptr)`: NULL is a no-op; otherwise run the search/coalesce loop
on the offset `ptr - memory_pool`. -/
def mem_free (ptr : Option Nat) (st : MMState) : MMState :=
  match ptr with
  | none => st
  | some off => { st with block_list := freeLoop off st.block_list }

/-- First descriptor whose offset matches (the `while` search shared by
`mem_free` and `mem_resize`). -/
def findBlock (off : Nat) : List MemBlock → Option MemBlock
  | [] => none
  | b :: rest => if b.offset = off then some b else findBlock off rest

/-- In-place shrink of `mem_resize`: at the first matching descriptor, split
off a free remainder when the block is strictly larger than `n` and the
descriptor `malloc` succeeds; otherwise leave the chain unchanged. -/
def shrinkSplit (ok : Bool) (n off : Nat) : List MemBlock → List MemBlock
  | [] => []
  | b :: rest =>
    if b.offset = off then
      if n < b.size ∧ ok = true then
        ⟨b.offset, n, b.is_free⟩ :: ⟨b.offset + n, b.size - n, true⟩ :: rest
      else b :: rest
    else b :: shrinkSplit ok n off rest

/-- `memcpy(dst, src, n)` on the pool contents: bytes in `[dst, dst+n)` take
the values previously at `[src, src+n)`; all other bytes are unchanged. -/
def memcpy (m : Nat → Nat) (dst src n : Nat) : Nat → Nat :=
  fun i => if dst ≤ i ∧ i < dst + n then m (src + (i - dst)) else m i

/-- `mem_resize(ptr, size)`: NULL behaves as `mem_alloc`; size 0 behaves as
`mem_free` returning NULL; a matching descriptor of sufficient size shrinks in
place (returning the same pointer); a too-small one triggers
alloc-new/copy-old-size-bytes/free-old; an unmatched offset returns NULL with
the state untouched. -/
def mem_resize (ok : Bool) (ptr : Option Nat) (n : Nat) (st : MMState) :
    Option Nat × MMState :=
  match ptr with
  | none => mem_alloc ok n st
  | some off =>
    if n = 0 then (none, mem_free (some off) st)
    else
      match findBlock off st.block_list with
      | none => (none, st)
      | some b =>
        if n ≤ b.size then
          (some off, { st with block_list := shrinkSplit ok n off st.block_list })
        else
          match mem_alloc ok n st with
          | (none, st₁) => (none, st₁)
          | (some noff, st₁) =>
            (some noff,
             mem_free (some off) { st₁ with mem := memcpy st₁.mem noff off b.size })

/-- `mem_deinit()`: pool freed (pointer back to NULL), descriptor chain freed,
`pool_size` reset.  The freed pool's bytes are unobservable; we keep `mem`. -/
def mem_deinit (st : MMState) : MMState :=
  { memory_pool := false, pool_size := 0, block_list := [], mem := st.mem }

/-- One allocator operation, with its metadata-`malloc` outcome where one can
occur. -/
inductive MemOp where
  | alloc (ok : Bool) (n : Nat)
  | free (ptr : Option Nat)
  | resize (ok : Bool) (ptr : Option Nat) (n : Nat)

/-- Apply one operation to the state (result value discarded). -/
def applyOp (st : MMState) : MemOp → MMState
  | .alloc ok n => (mem_alloc ok n st).2
  | .free p => mem_free p st
  | .resize ok p n => (mem_resize ok p n st).2

/-- Run a sequence of allocator operations. -/
def runOps (st : MMState) : List MemOp → MMState
  | [] => st
  | op :: ops => runOps (applyOp st op) ops

/-- `partitions pos cap l`: the chain `l` tiles `[pos, cap)` exactly — each
descriptor starts where the previous one ended, has positive size, and the
last one ends at `cap`. -/
def partitions : Nat → Nat → List MemBlock → Bool
  | pos, cap, [] => pos == cap
  | pos, cap, b :: rest =>
    (b.offset == pos) && decide (0 < b.size) && partitions (b.offset + b.size) cap rest

/-- No two adjacent descriptors are both free. -/
def noAdjFree : List MemBlock → Bool
  | [] => true
  | [_] => true
  | b :: c :: rest => (!(b.is_free && c.is_free)) && noAdjFree (c :: rest)

/-- Whether the chain's first descriptor is free (`false` for the empty chain). -/
def headFree : List MemBlock → Bool
  | [] => false
  | b :: _ => b.is_free

/-- An operation that is a `mem_alloc` or `mem_free` call (not `mem_resize`). -/
def isAllocOrFree : MemOp → Bool
  | .resize _ _ _ => false
  | _ => true

theorem partitions_nil {pos cap : Nat} : partitions pos cap [] = (pos == cap) := rfl

theorem partitions_cons {pos cap : Nat} {b : MemBlock} {rest : List MemBlock} :
    partitions pos cap (b :: rest) =
      ((b.offset == pos) && decide (0 < b.size) && partitions (b.offset + b.size) cap rest) :=
  rfl

theorem partitions_cons_iff {pos cap : Nat} {b : MemBlock} {rest : List MemBlock} :
    partitions pos cap (b :: rest) = true ↔
      b.offset = pos ∧ 0 < b.size ∧ partitions (b.offset + b.size) cap rest = true := by
  simp [partitions_cons, Bool.and_eq_true, beq_iff_eq, and_assoc]

theorem partitions_sum :
    ∀ (l : List MemBlock) (pos cap : Nat), partitions pos cap l = true →
      pos + (l.map MemBlock.size).sum = cap := by
  intro l
  induction l with
  | nil =>
    intro pos cap h
    simp [partitions_nil, beq_iff_eq] at h
    simp [h]
  | cons b rest ih =>
    intro pos cap h
    rw [partitions_cons_iff] at h
    obtain ⟨hoff, _, hrest⟩ := h
    have := ih (b.offset + b.size) cap hrest
    simp only [List.map_cons, List.sum_cons]
    omega

theorem partitions_pos_le {pos cap : Nat} {l : List MemBlock}
    (h : partitions pos cap l = true) : pos ≤ cap := by
  have := partitions_sum l pos cap h
  omega

theorem partitions_bounds :
    ∀ (l : List MemBlock) (pos cap : Nat), partitions pos cap l = true →
      ∀ b ∈ l, pos ≤ b.offset ∧ b.offset + b.size ≤ cap ∧ 0 < b.size := by
  intro l
  induction l with
  | nil => intro pos cap _ b hb; simp at hb
  | cons c rest ih =>
    intro pos cap h b hb
    rw [partitions_cons_iff] at h
    obtain ⟨hoff, hcs, hrest⟩ := h
    rcases List.mem_cons.mp hb with rfl | hb'
    · have := partitions_pos_le hrest
      omega
    · have := ih (c.offset + c.size) cap hrest b hb'
      omega

theorem partitions_split :
    ∀ (l₁ l₂ : List MemBlock) (pos cap : Nat), partitions pos cap (l₁ ++ l₂) = true →
      ∃ mid, partitions pos mid l₁ = true ∧ partitions mid cap l₂ = true := by
  intro l₁
  induction l₁ with
  | nil =>
    intro l₂ pos cap h
    exact ⟨pos, by simp [partitions_nil], h⟩
  | cons b l₁ ih =>
    intro l₂ pos cap h
    rw [List.cons_append, partitions_cons_iff] at h
    obtain ⟨hoff, hbs, hrest⟩ := h
    obtain ⟨mid, h₁, h₂⟩ := ih l₂ (b.offset + b.size) cap hrest
    exact ⟨mid, partitions_cons_iff.mpr ⟨hoff, hbs, h₁⟩, h₂⟩

theorem findBlock_eq_some {off : Nat} :
    ∀ {l : List MemBlock} {b : MemBlock}, findBlock off l = some b →
      b ∈ l ∧ b.offset = off := by
  intro l
  induction l with
  | nil => intro b h; simp [findBlock] at h
  | cons c rest ih =>
    intro b h
    by_cases hc : c.offset = off
    · simp [findBlock, hc] at h
      subst h
      exact ⟨List.mem_cons_self _ _, hc⟩
    · simp [findBlock, hc] at h
      obtain ⟨hb, hoff⟩ := ih h
      exact ⟨List.mem_cons_of_mem _ hb, hoff⟩

theorem findBlock_eq_none {off : Nat} :
    ∀ {l : List MemBlock}, findBlock off l = none ↔ ∀ b ∈ l, b.offset ≠ off := by
  intro l
  induction l with
  | nil => simp [findBlock]
  | cons c rest ih =>
    by_cases hc : c.offset = off
    · simp [findBlock, hc]
    · simp [findBlock, hc, ih]

theorem findBlock_append_of_none {off : Nat} :
    ∀ {l₁ : List MemBlock} (l₂ : List MemBlock), findBlock off l₁ = none →
      findBlock off (l₁ ++ l₂) = findBlock off l₂ := by
  intro l₁
  induction l₁ with
  | nil => intro l₂ _; rfl
  | cons c rest ih =>
    intro l₂ h
    by_cases hc : c.offset = off
    · simp [findBlock, hc] at h
    · simp [findBlock, hc] at h ⊢
      exact ih l₂ h

theorem findBlock_append_of_some {off : Nat} :
    ∀ {l₁ : List MemBlock} (l₂ : List MemBlock) {b : MemBlock}, findBlock off l₁ = some b →
      findBlock off (l₁ ++ l₂) = some b := by
  intro l₁
  induction l₁ with
  | nil => intro l₂ b h; simp [findBlock] at h
  | cons c rest ih =>
    intro l₂ b h
    by_cases hc : c.offset = off
    · simp [findBlock, hc] at h ⊢
      exact h
    · simp [findBlock, hc] at h ⊢
      exact ih l₂ h

theorem noAdjFree_cons_iff {b : MemBlock} {l : List MemBlock} :
    noAdjFree (b :: l) = true ↔
      (¬(b.is_free = true ∧ headFree l = true)) ∧ noAdjFree l = true := by
  cases l with
  | nil => simp [noAdjFree, headFree]
  | cons c rest =>
    simp only [noAdjFree, headFree, Bool.and_eq_true, Bool.not_eq_true']
    constructor
    · rintro ⟨h₁, h₂⟩
      refine ⟨fun h => ?_, h₂⟩
      rw [h.1, h.2] at h₁
      simp at h₁
    · rintro ⟨h₁, h₂⟩
      refine ⟨?_, h₂⟩
      cases hb : b.is_free <;> cases hc : c.is_free <;> simp_all

theorem allocLoop_first (ok : Bool) (n : Nat) :
    ∀ (l₁ : List MemBlock) (b : MemBlock) (l₂ : List MemBlock),
      (∀ c ∈ l₁, ¬(c.is_free = true ∧ n ≤ c.size)) → b.is_free = true → n ≤ b.size →
      allocLoop ok n (l₁ ++ b :: l₂) =
        if n < b.size ∧ ok = true then
          some (b.offset,
            l₁ ++ ⟨b.offset, n, false⟩ :: ⟨b.offset + n, b.size - n, true⟩ :: l₂)
        else some (b.offset, l₁ ++ ⟨b.offset, b.size, false⟩ :: l₂) := by
  intro l₁
  induction l₁ with
  | nil =>
    intro b l₂ _ hfree hn
    simp only [List.nil_append, allocLoop]
    rw [if_pos ⟨hfree, hn⟩]
  | cons c l₁ ih =>
    intro b l₂ hfirst hfree hn
    have hc : ¬(c.is_free = true ∧ n ≤ c.size) := hfirst c (List.mem_cons_self c _)
    have hrec := ih b l₂ (fun d hd => hfirst d (List.mem_cons_of_mem _ hd)) hfree hn
    by_cases hs : n < b.size ∧ ok = true
    · rw [if_pos hs] at hrec
      simp only [List.cons_append, allocLoop]
      rw [if_neg hc]
      simp only [List.append_eq]
      rw [hrec, if_pos hs]
    · rw [if_neg hs] at hrec
      simp only [List.cons_append, allocLoop]
      rw [if_neg hc]
      simp only [List.append_eq]
      rw [hrec, if_neg hs]

theorem allocLoop_eq_none {ok : Bool} {n : Nat} :
    ∀ {l : List MemBlock}, allocLoop ok n l = none ↔
      ∀ b ∈ l, ¬(b.is_free = true ∧ n ≤ b.size) := by
  intro l
  induction l with
  | nil => simp [allocLoop]
  | cons b rest ih =>
    by_cases hb : b.is_free = true ∧ n ≤ b.size
    · constructor
      · intro h
        exfalso
        simp only [allocLoop, if_pos hb] at h
        split at h <;> simp at h
      · intro h
        exact absurd hb (h b (List.mem_cons_self b rest))
    · simp only [allocLoop, if_neg hb]
      constructor
      · intro h b' hb'
        rcases List.mem_cons.mp hb' with rfl | hmem
        · exact hb
        · refine (ih.mp ?_) b' hmem
          cases hrec : allocLoop ok n rest with
          | none => rfl
          | some p =>
            obtain ⟨r, rest'⟩ := p
            rw [hrec] at h
            simp at h
      · intro h
        have hnone : allocLoop ok n rest = none :=
          ih.mpr (fun d hd => h d (List.mem_cons_of_mem _ hd))
        rw [hnone]

theorem allocLoop_partitions {ok : Bool} {n : Nat} (hn : 0 < n) :
    ∀ (l : List MemBlock) (pos cap off : Nat) (l' : List MemBlock),
      partitions pos cap l = true → allocLoop ok n l = some (off, l') →
      partitions pos cap l' = true := by
  intro l
  induction l with
  | nil => intro pos cap off l' _ h; simp [allocLoop] at h
  | cons b rest ih =>
    intro pos cap off l' hp h
    rw [partitions_cons_iff] at hp
    obtain ⟨hoff, hbs, hrest⟩ := hp
    by_cases hb : b.is_free = true ∧ n ≤ b.size
    · simp only [allocLoop, if_pos hb] at h
      by_cases hsplit : n < b.size ∧ ok = true
      · rw [if_pos hsplit] at h
        simp only [Option.some.injEq, Prod.mk.injEq] at h
        obtain ⟨-, rfl⟩ := h
        refine partitions_cons_iff.mpr ⟨hoff, hn, partitions_cons_iff.mpr ⟨rfl, ?_, ?_⟩⟩
        · simp only
          omega
        · show partitions (b.offset + n + (b.size - n)) cap rest = true
          rw [show b.offset + n + (b.size - n) = b.offset + b.size by omega]
          exact hrest
      · rw [if_neg hsplit] at h
        simp only [Option.some.injEq, Prod.mk.injEq] at h
        obtain ⟨-, rfl⟩ := h
        exact partitions_cons_iff.mpr ⟨hoff, hbs, hrest⟩
    · simp only [allocLoop, if_neg hb] at h
      cases hrec : allocLoop ok n rest with
      | none => rw [hrec] at h; simp at h
      | some p =>
        obtain ⟨r, rest'⟩ := p
        rw [hrec] at h
        simp only [Option.some.injEq, Prod.mk.injEq] at h
        obtain ⟨-, rfl⟩ := h
        exact partitions_cons_iff.mpr
          ⟨hoff, hbs, ih (b.offset + b.size) cap r rest' hrest hrec⟩

theorem allocLoop_noAdjFree {ok : Bool} {n : Nat} :
    ∀ (l : List MemBlock) (off : Nat) (l' : List MemBlock),
      noAdjFree l = true → allocLoop ok n l = some (off, l') →
      noAdjFree l' = true ∧ (headFree l' = true → headFree l = true) := by
  intro l
  induction l with
  | nil => intro off l' _ h; simp [allocLoop] at h
  | cons b rest ih =>
    intro off l' hna h
    rw [noAdjFree_cons_iff] at hna
    obtain ⟨hpair, hrest⟩ := hna
    by_cases hb : b.is_free = true ∧ n ≤ b.size
    · simp only [allocLoop, if_pos hb] at h
      by_cases hsplit : n < b.size ∧ ok = true
      · rw [if_pos hsplit] at h
        simp only [Option.some.injEq, Prod.mk.injEq] at h
        obtain ⟨-, rfl⟩ := h
        have hrf : ¬ headFree rest = true := fun hf => hpair ⟨hb.1, hf⟩
        refine ⟨noAdjFree_cons_iff.mpr ⟨?_, noAdjFree_cons_iff.mpr ⟨?_, hrest⟩⟩, ?_⟩
        · simp [headFree]
        · simp only [headFree]
          intro hcon
          exact hrf hcon.2
        · simp [headFree]
      · rw [if_neg hsplit] at h
        simp only [Option.some.injEq, Prod.mk.injEq] at h
        obtain ⟨-, rfl⟩ := h
        refine ⟨noAdjFree_cons_iff.mpr ⟨?_, hrest⟩, ?_⟩
        · simp only [headFree]
          intro hcon
          exact absurd hcon.1 (by simp)
        · simp [headFree]
    · simp only [allocLoop, if_neg hb] at h
      cases hrec : allocLoop ok n rest with
      | none => rw [hrec] at h; simp at h
      | some p =>
        obtain ⟨r, rest'⟩ := p
        rw [hrec] at h
        simp only [Option.some.injEq, Prod.mk.injEq] at h
        obtain ⟨-, rfl⟩ := h
        obtain ⟨hna', hhead⟩ := ih r rest' hrest hrec
        refine ⟨noAdjFree_cons_iff.mpr ⟨?_, hna'⟩, ?_⟩
        · intro hcon
          exact hpair ⟨hcon.1, hhead hcon.2⟩
        · simp [headFree]

theorem fwdCoalesce_ne_nil (x : MemBlock) (l : List MemBlock) : fwdCoalesce x l ≠ [] := by
  cases l with
  | nil => simp [fwdCoalesce]
  | cons d rest =>
    simp only [fwdCoalesce]
    split <;> simp

theorem fwdCoalesce_partitions {x : MemBlock} {l : List MemBlock} {pos cap : Nat}
    (hoff : x.offset = pos) (hsz : 0 < x.size)
    (hrest : partitions (x.offset + x.size) cap l = true) :
    partitions pos cap (fwdCoalesce x l) = true := by
  cases l with
  | nil =>
    exact partitions_cons_iff.mpr ⟨hoff, hsz, hrest⟩
  | cons d rest =>
    rw [partitions_cons_iff] at hrest
    obtain ⟨hd, hds, hrest'⟩ := hrest
    simp only [fwdCoalesce]
    by_cases hg : d.is_free = true ∧ x.offset + x.size = d.offset
    · rw [if_pos hg]
      refine partitions_cons_iff.mpr ⟨hoff, by show 0 < x.size + d.size; omega, ?_⟩
      show partitions (x.offset + (x.size + d.size)) cap rest = true
      rw [show x.offset + (x.size + d.size) = d.offset + d.size by omega]
      exact hrest'
    · rw [if_neg hg]
      exact partitions_cons_iff.mpr
        ⟨hoff, hsz, partitions_cons_iff.mpr ⟨hd, hds, hrest'⟩⟩

theorem freeLoop_partitions (off : Nat) :
    ∀ (l : List MemBlock) (pos cap : Nat), partitions pos cap l = true →
      partitions pos cap (freeLoop off l) = true := by
  intro l
  induction l with
  | nil => intro pos cap h; exact h
  | cons b tail ih =>
    intro pos cap h
    cases tail with
    | nil =>
      rw [partitions_cons_iff] at h
      obtain ⟨hoff, hbs, hrest⟩ := h
      simp only [freeLoop]
      split
      · exact partitions_cons_iff.mpr ⟨hoff, hbs, hrest⟩
      · exact partitions_cons_iff.mpr ⟨hoff, hbs, hrest⟩
    | cons c rest =>
      rw [partitions_cons_iff] at h
      obtain ⟨hoff, hbs, hrest⟩ := h
      simp only [freeLoop]
      by_cases hb : b.offset = off
      · rw [if_pos hb]
        exact fwdCoalesce_partitions hoff hbs hrest
      · rw [if_neg hb]
        by_cases hc : c.offset = off
        · rw [if_pos hc]
          rw [partitions_cons_iff] at hrest
          obtain ⟨hcoff, hcs, hrest'⟩ := hrest
          have hcur : partitions c.offset cap
              (fwdCoalesce ⟨c.offset, c.size, true⟩ rest) = true :=
            fwdCoalesce_partitions rfl hcs hrest'
          cases hcl : fwdCoalesce ⟨c.offset, c.size, true⟩ rest with
          | nil => exact absurd hcl (fwdCoalesce_ne_nil _ _)
          | cons cur tailc =>
            rw [hcl] at hcur
            rw [partitions_cons_iff] at hcur
            obtain ⟨hcur1, hcur2, hcur3⟩ := hcur
            show partitions pos cap
              (if b.is_free = true ∧ b.offset + b.size = cur.offset then
                ⟨b.offset, b.size + cur.size, b.is_free⟩ :: tailc
              else b :: cur :: tailc) = true
            by_cases hbm : b.is_free = true ∧ b.offset + b.size = cur.offset
            · rw [if_pos hbm]
              refine partitions_cons_iff.mpr
                ⟨hoff, by show 0 < b.size + cur.size; omega, ?_⟩
              show partitions (b.offset + (b.size + cur.size)) cap tailc = true
              rw [show b.offset + (b.size + cur.size) = cur.offset + cur.size by omega]
              exact hcur3
            · rw [if_neg hbm]
              refine partitions_cons_iff.mpr ⟨hoff, hbs, partitions_cons_iff.mpr
                ⟨by omega, hcur2, hcur3⟩⟩
        · rw [if_neg hc]
          exact partitions_cons_iff.mpr ⟨hoff, hbs, ih (b.offset + b.size) cap hrest⟩

theorem freeLoop_id_of_not_mem (off : Nat) :
    ∀ (l : List MemBlock), (∀ b ∈ l, b.offset ≠ off) → freeLoop off l = l := by
  intro l
  induction l with
  | nil => intro _; rfl
  | cons b tail ih =>
    intro h
    cases tail with
    | nil =>
      simp only [freeLoop]
      rw [if_neg (h b (List.mem_cons_self _ _))]
    | cons c rest =>
      simp only [freeLoop]
      rw [if_neg (h b (List.mem_cons_self _ _)),
        if_neg (h c (List.mem_cons_of_mem _ (List.mem_cons_self _ _)))]
      rw [ih (fun d hd => h d (List.mem_cons_of_mem _ hd))]

theorem headFree_freeLoop {off : Nat} {c : MemBlock} (rest : List MemBlock)
    (hcf : c.is_free = false) (hco : c.offset ≠ off) :
    headFree (freeLoop off (c :: rest)) = false := by
  cases rest with
  | nil =>
    simp only [freeLoop]
    rw [if_neg hco]
    simpa [headFree] using hcf
  | cons d rest2 =>
    simp only [freeLoop]
    rw [if_neg hco]
    by_cases hd : d.offset = off
    · rw [if_pos hd]
      cases hcl : fwdCoalesce ⟨d.offset, d.size, true⟩ rest2 with
      | nil => exact absurd hcl (fwdCoalesce_ne_nil _ _)
      | cons cur tailc =>
        show headFree
          (if c.is_free = true ∧ c.offset + c.size = cur.offset then
            ⟨c.offset, c.size + cur.size, c.is_free⟩ :: tailc
          else c :: cur :: tailc) = false
        rw [if_neg (fun hcon => by rw [hcf] at hcon; exact Bool.false_ne_true hcon.1)]
        simpa [headFree] using hcf
    · rw [if_neg hd]
      simpa [headFree] using hcf

theorem fwdCoalesce_head (x : MemBlock) (l : List MemBlock) :
    ∃ cur tail, fwdCoalesce x l = cur :: tail ∧ cur.offset = x.offset ∧
      cur.is_free = x.is_free ∧ x.size ≤ cur.size := by
  cases l with
  | nil => exact ⟨x, [], rfl, rfl, rfl, le_refl _⟩
  | cons d rest =>
    simp only [fwdCoalesce]
    by_cases hg : d.is_free = true ∧ x.offset + x.size = d.offset
    · rw [if_pos hg]
      exact ⟨_, rest, rfl, rfl, rfl, Nat.le_add_right _ _⟩
    · rw [if_neg hg]
      exact ⟨x, d :: rest, rfl, rfl, rfl, le_refl _⟩

theorem fwdCoalesce_head_inv {x : MemBlock} {l : List MemBlock} {cap : Nat}
    (hxf : x.is_free = true)
    (hp : partitions (x.offset + x.size) cap l = true) (hna : noAdjFree l = true) :
    ∃ cur tail, fwdCoalesce x l = cur :: tail ∧ cur.offset = x.offset ∧
      cur.is_free = true ∧ x.size ≤ cur.size ∧ headFree tail = false ∧
      noAdjFree tail = true ∧ partitions (cur.offset + cur.size) cap tail = true := by
  cases l with
  | nil =>
    exact ⟨x, [], rfl, rfl, hxf, le_refl _, rfl, rfl, hp⟩
  | cons d rest =>
    rw [partitions_cons_iff] at hp
    obtain ⟨hdoff, hds, hrest⟩ := hp
    rw [noAdjFree_cons_iff] at hna
    obtain ⟨hpair, hna'⟩ := hna
    simp only [fwdCoalesce]
    cases hdf : d.is_free with
    | true =>
      rw [if_pos ⟨rfl, hdoff.symm⟩]
      refine ⟨_, rest, rfl, rfl, hxf, Nat.le_add_right _ _, ?_, hna', ?_⟩
      · cases hhf : headFree rest with
        | false => rfl
        | true => exact absurd ⟨hdf, hhf⟩ hpair
      · show partitions (x.offset + (x.size + d.size)) cap rest = true
        rw [show x.offset + (x.size + d.size) = d.offset + d.size by omega]
        exact hrest
    | false =>
      rw [if_neg (fun hcon => Bool.false_ne_true hcon.1)]
      refine ⟨x, d :: rest, rfl, rfl, hxf, le_refl _, ?_, ?_, ?_⟩
      · simpa [headFree] using hdf
      · exact noAdjFree_cons_iff.mpr ⟨hpair, hna'⟩
      · exact partitions_cons_iff.mpr ⟨hdoff, hds, hrest⟩

theorem freeLoop_noAdjFree (off : Nat) :
    ∀ (l : List MemBlock) (pos cap : Nat), partitions pos cap l = true →
      noAdjFree l = true → noAdjFree (freeLoop off l) = true := by
  intro l
  induction l with
  | nil => intro pos cap _ _; exact rfl
  | cons b tail ih =>
    intro pos cap hp hna
    cases tail with
    | nil =>
      simp only [freeLoop]
      split <;> rfl
    | cons c rest =>
      rw [partitions_cons_iff] at hp
      obtain ⟨hboff, hbs, hp'⟩ := hp
      rw [noAdjFree_cons_iff] at hna
      obtain ⟨hpair, hna'⟩ := hna
      simp only [freeLoop]
      by_cases hb : b.offset = off
      · rw [if_pos hb]
        obtain ⟨cur, tailc, heq, -, hcf, -, hht, hnat, -⟩ :=
          @fwdCoalesce_head_inv ⟨b.offset, b.size, true⟩ (c :: rest) cap rfl hp' hna'
        rw [heq]
        refine noAdjFree_cons_iff.mpr ⟨?_, hnat⟩
        intro hcon
        rw [hcon.2] at hht
        simp at hht
      · rw [if_neg hb]
        by_cases hc : c.offset = off
        · rw [if_pos hc]
          rw [partitions_cons_iff] at hp'
          obtain ⟨hcoff, hcs, hrest'⟩ := hp'
          rw [noAdjFree_cons_iff] at hna'
          obtain ⟨hpair2, hna2⟩ := hna'
          obtain ⟨cur, tailc, heq, hcuroff, hcurf, -, hht, hnat, -⟩ :=
            @fwdCoalesce_head_inv ⟨c.offset, c.size, true⟩ rest cap rfl hrest' hna2
          have hcuroff' : cur.offset = c.offset := by simpa using hcuroff
          rw [heq]
          show noAdjFree
            (if b.is_free = true ∧ b.offset + b.size = cur.offset then
              ⟨b.offset, b.size + cur.size, b.is_free⟩ :: tailc
            else b :: cur :: tailc) = true
          by_cases hbm : b.is_free = true ∧ b.offset + b.size = cur.offset
          · rw [if_pos hbm]
            refine noAdjFree_cons_iff.mpr ⟨?_, hnat⟩
            intro hcon
            rw [hcon.2] at hht
            simp at hht
          · rw [if_neg hbm]
            have hbnf : b.is_free = false := by
              cases hbf : b.is_free with
              | false => rfl
              | true => exact absurd ⟨hbf, by omega⟩ hbm
            refine noAdjFree_cons_iff.mpr ⟨?_, noAdjFree_cons_iff.mpr ⟨?_, hnat⟩⟩
            · intro hcon
              rw [hbnf] at hcon
              simp at hcon
            · intro hcon
              rw [hcon.2] at hht
              simp at hht
        · rw [if_neg hc]
          refine noAdjFree_cons_iff.mpr
            ⟨?_, ih (b.offset + b.size) cap hp' hna'⟩
          intro hcon
          have hcnf : c.is_free = false := by
            cases hcf : c.is_free with
            | false => rfl
            | true => exact absurd ⟨hcon.1, by simpa [headFree] using hcf⟩ hpair
          have := @headFree_freeLoop off c rest hcnf hc
          rw [hcon.2] at this
          simp at this

theorem freeLoop_id_of_free (off : Nat) :
    ∀ (l : List MemBlock) (pos cap : Nat) (fb : MemBlock),
      partitions pos cap l = true → noAdjFree l = true →
      findBlock off l = some fb → fb.is_free = true → freeLoop off l = l := by
  intro l
  induction l with
  | nil => intro pos cap fb _ _ hf _; simp [findBlock] at hf
  | cons b tail ih =>
    intro pos cap fb hp hna hf hfree
    cases tail with
    | nil =>
      simp only [freeLoop]
      by_cases hb : b.offset = off
      · rw [if_pos hb]
        simp only [findBlock, if_pos hb, Option.some.injEq] at hf
        obtain ⟨o, s, f⟩ := b
        subst hf
        simp only at hfree
        rw [hfree]
      · rw [if_neg hb]
    | cons c rest =>
      rw [partitions_cons_iff] at hp
      obtain ⟨hboff, hbs, hp'⟩ := hp
      rw [noAdjFree_cons_iff] at hna
      obtain ⟨hpair, hna'⟩ := hna
      simp only [freeLoop]
      by_cases hb : b.offset = off
      · rw [if_pos hb]
        simp only [findBlock, if_pos hb, Option.some.injEq] at hf
        have hcnf : c.is_free = false := by
          cases hcf : c.is_free with
          | false => rfl
          | true =>
            refine absurd ⟨?_, by simpa [headFree] using hcf⟩ hpair
            rw [← hf] at hfree
            exact hfree
        simp only [fwdCoalesce]
        rw [if_neg (fun hcon => by rw [hcnf] at hcon; simp at hcon)]
        have hbf : b.is_free = true := by rw [← hf] at hfree; exact hfree
        obtain ⟨o, s, f⟩ := b
        simp only at hbf
        rw [hbf]
      · rw [if_neg hb]
        by_cases hc : c.offset = off
        · rw [if_pos hc]
          simp only [findBlock, if_neg hb, if_pos hc, Option.some.injEq] at hf
          have hcf : c.is_free = true := by rw [← hf] at hfree; exact hfree
          rw [partitions_cons_iff] at hp'
          obtain ⟨hcoff, hcs, hrest'⟩ := hp'
          rw [noAdjFree_cons_iff] at hna'
          obtain ⟨hpair2, hna2⟩ := hna'
          have hrnf : headFree rest = false := by
            cases hhf : headFree rest with
            | false => rfl
            | true => exact absurd ⟨hcf, hhf⟩ hpair2
          have hcur : fwdCoalesce ⟨c.offset, c.size, true⟩ rest =
              ⟨c.offset, c.size, true⟩ :: rest := by
            cases rest with
            | nil => rfl
            | cons d rest2 =>
              simp only [fwdCoalesce]
              rw [if_neg (fun hcon => by
                simp only [headFree] at hrnf
                rw [hrnf] at hcon
                simp at hcon)]
          rw [hcur]
          show (if b.is_free = true ∧ b.offset + b.size = (⟨c.offset, c.size, true⟩ : MemBlock).offset then
              ⟨b.offset, b.size + (⟨c.offset, c.size, true⟩ : MemBlock).size, b.is_free⟩ ::
                rest
            else b :: (⟨c.offset, c.size, true⟩ : MemBlock) :: rest) = b :: c :: rest
          have hbnf : b.is_free = false := by
            cases hbf : b.is_free with
            | false => rfl
            | true => exact absurd ⟨hbf, by simpa [headFree] using hcf⟩ hpair
          rw [if_neg (fun hcon => by rw [hbnf] at hcon; simp at hcon)]
          obtain ⟨o, s, f⟩ := c
          simp only at hcf
          rw [hcf]
        · rw [if_neg hc]
          simp only [findBlock, if_neg hb, if_neg hc] at hf
          have hf' : findBlock off (c :: rest) = some fb := by
            simp only [findBlock, if_neg hc]
            exact hf
          rw [ih (b.offset + b.size) cap fb hp' hna' hf' hfree]

theorem freeLoop_covers (off : Nat) :
    ∀ (l : List MemBlock) (fb : MemBlock), findBlock off l = some fb →
      ∃ cv, cv ∈ freeLoop off l ∧ cv.is_free = true ∧ cv.offset ≤ fb.offset ∧
        fb.offset + fb.size ≤ cv.offset + cv.size := by
  intro l
  induction l with
  | nil => intro fb hf; simp [findBlock] at hf
  | cons b tail ih =>
    intro fb hf
    cases tail with
    | nil =>
      simp only [freeLoop]
      by_cases hb : b.offset = off
      · rw [if_pos hb]
        simp only [findBlock, if_pos hb, Option.some.injEq] at hf
        subst hf
        exact ⟨⟨b.offset, b.size, true⟩, List.mem_singleton.mpr rfl, rfl,
          le_refl _, le_refl _⟩
      · rw [if_neg hb]
        simp [findBlock, if_neg hb] at hf
    | cons c rest =>
      simp only [freeLoop]
      by_cases hb : b.offset = off
      · rw [if_pos hb]
        simp only [findBlock, if_pos hb, Option.some.injEq] at hf
        subst hf
        obtain ⟨cur, tailc, heq, hcuroff, hcurf, hcursz⟩ :=
          fwdCoalesce_head (⟨b.offset, b.size, true⟩ : MemBlock) (c :: rest)
        rw [heq]
        refine ⟨cur, List.mem_cons_self _ _, by simpa using hcurf, ?_, ?_⟩
        · simp only at hcuroff
          omega
        · simp only at hcuroff hcursz
          omega
      · rw [if_neg hb]
        by_cases hc : c.offset = off
        · rw [if_pos hc]
          simp only [findBlock, if_neg hb, if_pos hc, Option.some.injEq] at hf
          subst hf
          obtain ⟨cur, tailc, heq, hcuroff, hcurf, hcursz⟩ :=
            fwdCoalesce_head (⟨c.offset, c.size, true⟩ : MemBlock) rest
          rw [heq]
          show ∃ cv, cv ∈
            (if b.is_free = true ∧ b.offset + b.size = cur.offset then
              ⟨b.offset, b.size + cur.size, b.is_free⟩ :: tailc
            else b :: cur :: tailc) ∧ cv.is_free = true ∧ cv.offset ≤ c.offset ∧
            c.offset + c.size ≤ cv.offset + cv.size
          by_cases hbm : b.is_free = true ∧ b.offset + b.size = cur.offset
          · rw [if_pos hbm]
            refine ⟨⟨b.offset, b.size + cur.size, b.is_free⟩,
              List.mem_cons_self _ _, hbm.1, ?_, ?_⟩
            · show b.offset ≤ c.offset
              simp only at hcuroff
              omega
            · show c.offset + c.size ≤ b.offset + (b.size + cur.size)
              simp only at hcuroff hcursz
              omega
          · rw [if_neg hbm]
            refine ⟨cur, List.mem_cons_of_mem _ (List.mem_cons_self _ _),
              by simpa using hcurf, ?_, ?_⟩
            · simp only at hcuroff
              omega
            · simp only at hcuroff hcursz
              omega
        · rw [if_neg hc]
          simp only [findBlock, if_neg hb, if_neg hc] at hf
          have hf' : findBlock off (c :: rest) = some fb := by
            simp only [findBlock, if_neg hc]
            exact hf
          obtain ⟨cv, hmem, h1, h2, h3⟩ := ih fb hf'
          exact ⟨cv, List.mem_cons_of_mem _ hmem, h1, h2, h3⟩

theorem shrinkSplit_partitions {ok : Bool} {n off : Nat} (hn : 0 < n) :
    ∀ (l : List MemBlock) (pos cap : Nat), partitions pos cap l = true →
      partitions pos cap (shrinkSplit ok n off l) = true := by
  intro l
  induction l with
  | nil => intro pos cap h; exact h
  | cons b rest ih =>
    intro pos cap h
    rw [partitions_cons_iff] at h
    obtain ⟨hoff, hbs, hrest⟩ := h
    simp only [shrinkSplit]
    by_cases hb : b.offset = off
    · rw [if_pos hb]
      by_cases hs : n < b.size ∧ ok = true
      · rw [if_pos hs]
        refine partitions_cons_iff.mpr ⟨hoff, hn, partitions_cons_iff.mpr
          ⟨rfl, by show 0 < b.size - n; omega, ?_⟩⟩
        show partitions (b.offset + n + (b.size - n)) cap rest = true
        rw [show b.offset + n + (b.size - n) = b.offset + b.size by omega]
        exact hrest
      · rw [if_neg hs]
        exact partitions_cons_iff.mpr ⟨hoff, hbs, hrest⟩
    · rw [if_neg hb]
      exact partitions_cons_iff.mpr ⟨hoff, hbs, ih (b.offset + b.size) cap hrest⟩

theorem mem_alloc_state (ok : Bool) (n : Nat) (st : MMState) :
    ((mem_alloc ok n st).2).memory_pool = st.memory_pool ∧
    ((mem_alloc ok n st).2).pool_size = st.pool_size ∧
    ((mem_alloc ok n st).2).mem = st.mem := by
  unfold mem_alloc
  by_cases hn : n = 0
  · rw [if_pos hn]
    exact ⟨rfl, rfl, rfl⟩
  · rw [if_neg hn]
    cases h : allocLoop ok n st.block_list with
    | none => exact ⟨rfl, rfl, rfl⟩
    | some p =>
      obtain ⟨off, bl⟩ := p
      exact ⟨rfl, rfl, rfl⟩

theorem mem_free_state (p : Option Nat) (st : MMState) :
    (mem_free p st).memory_pool = st.memory_pool ∧
    (mem_free p st).pool_size = st.pool_size ∧
    (mem_free p st).mem = st.mem := by
  cases p <;> exact ⟨rfl, rfl, rfl⟩

theorem mem_resize_state (ok : Bool) (ptr : Option Nat) (n : Nat) (st : MMState) :
    ((mem_resize ok ptr n st).2).memory_pool = st.memory_pool ∧
    ((mem_resize ok ptr n st).2).pool_size = st.pool_size := by
  cases ptr with
  | none =>
    simp only [mem_resize]
    exact ⟨(mem_alloc_state ok n st).1, (mem_alloc_state ok n st).2.1⟩
  | some off =>
    simp only [mem_resize]
    split
    · exact ⟨(mem_free_state (some off) st).1, (mem_free_state (some off) st).2.1⟩
    · split
      · exact ⟨rfl, rfl⟩
      · split
        · exact ⟨rfl, rfl⟩
        · split
          · next st₁ hal =>
            have h1 := (mem_alloc_state ok n st).1
            have h2 := (mem_alloc_state ok n st).2.1
            rw [hal] at h1 h2
            exact ⟨h1, h2⟩
          · next noff st₁ hal =>
            have h1 := (mem_alloc_state ok n st).1
            have h2 := (mem_alloc_state ok n st).2.1
            rw [hal] at h1 h2
            exact ⟨h1, h2⟩

theorem mem_alloc_partitions {cap : Nat} (ok : Bool) (n : Nat) (st : MMState)
    (h : partitions 0 cap st.block_list = true) :
    partitions 0 cap ((mem_alloc ok n st).2).block_list = true := by
  unfold mem_alloc
  by_cases hn : n = 0
  · rw [if_pos hn]
    exact h
  · rw [if_neg hn]
    cases hal : allocLoop ok n st.block_list with
    | none => exact h
    | some p =>
      obtain ⟨off, bl⟩ := p
      exact allocLoop_partitions (Nat.pos_of_ne_zero hn) st.block_list 0 cap off bl h hal

theorem mem_free_partitions {cap : Nat} (p : Option Nat) (st : MMState)
    (h : partitions 0 cap st.block_list = true) :
    partitions 0 cap (mem_free p st).block_list = true := by
  cases p with
  | none => exact h
  | some off => exact freeLoop_partitions off st.block_list 0 cap h

theorem mem_resize_partitions {cap : Nat} (ok : Bool) (ptr : Option Nat) (n : Nat)
    (st : MMState) (h : partitions 0 cap st.block_list = true) :
    partitions 0 cap ((mem_resize ok ptr n st).2).block_list = true := by
  cases ptr with
  | none =>
    simp only [mem_resize]
    exact mem_alloc_partitions ok n st h
  | some off =>
    simp only [mem_resize]
    split
    · exact mem_free_partitions (some off) st h
    · split
      · exact h
      · split
        · exact shrinkSplit_partitions (Nat.pos_of_ne_zero (by assumption)) st.block_list 0 cap h
        · split
          · next st₁ hal =>
            have halp := mem_alloc_partitions ok n st h
            rw [hal] at halp
            exact halp
          · next noff st₁ hal =>
            have halp := mem_alloc_partitions ok n st h
            rw [hal] at halp
            exact freeLoop_partitions off st₁.block_list 0 cap halp

theorem mem_alloc_noAdjFree (ok : Bool) (n : Nat) (st : MMState)
    (h : noAdjFree st.block_list = true) :
    noAdjFree ((mem_alloc ok n st).2).block_list = true := by
  unfold mem_alloc
  by_cases hn : n = 0
  · rw [if_pos hn]
    exact h
  · rw [if_neg hn]
    cases hal : allocLoop ok n st.block_list with
    | none => exact h
    | some p =>
      obtain ⟨off, bl⟩ := p
      exact (allocLoop_noAdjFree st.block_list off bl h hal).1

theorem mem_free_noAdjFree {cap : Nat} (p : Option Nat) (st : MMState)
    (hp : partitions 0 cap st.block_list = true)
    (h : noAdjFree st.block_list = true) :
    noAdjFree (mem_free p st).block_list = true := by
  cases p with
  | none => exact h
  | some off => exact freeLoop_noAdjFree off st.block_list 0 cap hp h

theorem applyOp_pool_size (st : MMState) (op : MemOp) :
    (applyOp st op).pool_size = st.pool_size := by
  cases op with
  | alloc ok n => exact (mem_alloc_state ok n st).2.1
  | free p => exact (mem_free_state p st).2.1
  | resize ok p n => exact (mem_resize_state ok p n st).2

theorem applyOp_partitions (st : MMState) (op : MemOp)
    (h : partitions 0 st.pool_size st.block_list = true) :
    partitions 0 (applyOp st op).pool_size (applyOp st op).block_list = true := by
  rw [applyOp_pool_size]
  cases op with
  | alloc ok n => exact mem_alloc_partitions ok n st h
  | free p => exact mem_free_partitions p st h
  | resize ok p n => exact mem_resize_partitions ok p n st h

theorem runOps_partitions :
    ∀ (ops : List MemOp) (st : MMState),
      partitions 0 st.pool_size st.block_list = true →
      partitions 0 (runOps st ops).pool_size (runOps st ops).block_list = true := by
  intro ops
  induction ops with
  | nil => intro st h; exact h
  | cons op ops ih => intro st h; exact ih (applyOp st op) (applyOp_partitions st op h)

theorem runOps_noAdjFree :
    ∀ (ops : List MemOp) (st : MMState),
      (∀ op ∈ ops, isAllocOrFree op = true) →
      partitions 0 st.pool_size st.block_list = true →
      noAdjFree st.block_list = true →
      noAdjFree (runOps st ops).block_list = true := by
  intro ops
  induction ops with
  | nil => intro st _ _ h; exact h
  | cons op ops ih =>
    intro st hops hp hna
    refine ih (applyOp st op) (fun o ho => hops o (List.mem_cons_of_mem _ ho))
      (applyOp_partitions st op hp) ?_
    cases op with
    | alloc ok n => exact mem_alloc_noAdjFree ok n st hna
    | free p => exact mem_free_noAdjFree p st hp hna
    | resize ok p n =>
      exact absurd (hops _ (List.mem_cons_self _ _)) (by simp [isAllocOrFree])

theorem runOps_pool_size : ∀ (ops : List MemOp) (st : MMState),
    (runOps st ops).pool_size = st.pool_size := by
  intro ops
  induction ops with
  | nil => intro st; rfl
  | cons op ops ih =>
    intro st
    show (runOps (applyOp st op) ops).pool_size = st.pool_size
    rw [ih, applyOp_pool_size]

/-- C1, counterexample: the claim asserts that no reachable state has two
adjacent free descriptors, and in particular that `mem_resize`'s shrink path
merges the split-off free remainder with a following free block.  But after
`mem_init(100); a = mem_alloc(30); mem_resize(a, 10)` the chain is
`[0,10) allocated, [10,30) free, [30,100) free`: the shrink path inserted the
remainder `[10,30)` directly in front of the free block `[30,100)` without
coalescing, so two adjacent descriptors are both free. -/
theorem C1_counterexample :
    noAdjFree (runOps (mem_init 100 (fun _ => 0))
      [MemOp.alloc true 30, MemOp.resize true (some 0) 10]).block_list = false := by
  decide

/-- C1, amended: for every sequence of `mem_alloc` and `mem_free` operations
starting from `mem_init(cap)` with `cap > 0`, the chain never contains two
adjacent free descriptors.  (`mem_resize`'s shrink path can violate this, as
the counterexample shows.) -/
theorem C1_noAdjFree_alloc_free (cap : Nat) (m0 : Nat → Nat) (ops : List MemOp)
    (hcap : 0 < cap) (hops : ∀ op ∈ ops, isAllocOrFree op = true) :
    noAdjFree (runOps (mem_init cap m0) ops).block_list = true := by
  refine runOps_noAdjFree ops (mem_init cap m0) hops ?_ rfl
  show partitions 0 cap [⟨0, cap, true⟩] = true
  simp [partitions, hcap]

theorem C1_noAdjFree_alloc_free_witness :
    0 < 100 ∧
    (∀ op ∈ [MemOp.alloc true 30, MemOp.free (some 0)], isAllocOrFree op = true) ∧
    noAdjFree (runOps (mem_init 100 (fun _ => 0))
      [MemOp.alloc true 30, MemOp.free (some 0)]).block_list = true :=
  ⟨by decide, by decide,
    C1_noAdjFree_alloc_free 100 (fun _ => 0) _ (by decide) (by decide)⟩

/-- C2: after any sequence of allocator operations following `mem_init(cap)`
(with `cap > 0`), the chain partitions `[0, cap)` exactly: the first
descriptor's offset is 0, each descriptor's offset plus size is the next
descriptor's offset, every size is positive, the last descriptor ends at
`cap` (all of which `partitions 0 cap` states), and the sizes sum to `cap`. -/
theorem C2_partition (cap : Nat) (m0 : Nat → Nat) (ops : List MemOp)
    (hcap : 0 < cap) :
    partitions 0 cap (runOps (mem_init cap m0) ops).block_list = true ∧
    ((runOps (mem_init cap m0) ops).block_list.map MemBlock.size).sum = cap := by
  have hinit : partitions 0 (mem_init cap m0).pool_size
      (mem_init cap m0).block_list = true := by
    show partitions 0 cap [⟨0, cap, true⟩] = true
    simp [partitions, hcap]
  have hrun := runOps_partitions ops (mem_init cap m0) hinit
  rw [runOps_pool_size] at hrun
  refine ⟨hrun, ?_⟩
  have := partitions_sum _ 0 cap hrun
  omega

theorem C2_partition_witness :
    0 < 100 ∧
    (partitions 0 100 (runOps (mem_init 100 (fun _ => 0))
        [MemOp.alloc true 30, MemOp.resize true (some 0) 10,
          MemOp.free (some 0)]).block_list = true ∧
      ((runOps (mem_init 100 (fun _ => 0))
        [MemOp.alloc true 30, MemOp.resize true (some 0) 10,
          MemOp.free (some 0)]).block_list.map MemBlock.size).sum = 100) :=
  ⟨by decide, C2_partition 100 (fun _ => 0) _ (by decide)⟩

/-- C9: `mem_free(NULL)` is a no-op, and `mem_free` on a handle whose
(first-matching) block is already free is a no-op, for every state satisfying
the chain invariants (partition plus no-two-adjacent-free); in particular the
chain's partition of `[0, cap)` and the sum of descriptor sizes are
unchanged. -/
theorem C9_free_noop (st : MMState) (cap off : Nat) (b : MemBlock)
    (hp : partitions 0 cap st.block_list = true)
    (hna : noAdjFree st.block_list = true)
    (hfb : findBlock off st.block_list = some b)
    (hfree : b.is_free = true) :
    mem_free none st = st ∧ mem_free (some off) st = st := by
  refine ⟨rfl, ?_⟩
  show { st with block_list := freeLoop off st.block_list } = st
  rw [freeLoop_id_of_free off st.block_list 0 cap b hp hna hfb hfree]

theorem C9_free_noop_witness :
    partitions 0 100 (runOps (mem_init 100 (fun _ => 0))
      [MemOp.alloc true 30]).block_list = true ∧
    noAdjFree (runOps (mem_init 100 (fun _ => 0))
      [MemOp.alloc true 30]).block_list = true ∧
    findBlock 30 (runOps (mem_init 100 (fun _ => 0))
      [MemOp.alloc true 30]).block_list = some (MemBlock.mk 30 70 true) ∧
    (MemBlock.mk 30 70 true).is_free = true ∧
    (mem_free none (runOps (mem_init 100 (fun _ => 0)) [MemOp.alloc true 30]) =
        runOps (mem_init 100 (fun _ => 0)) [MemOp.alloc true 30] ∧
      mem_free (some 30) (runOps (mem_init 100 (fun _ => 0)) [MemOp.alloc true 30]) =
        runOps (mem_init 100 (fun _ => 0)) [MemOp.alloc true 30]) :=
  ⟨by decide, by decide, by decide, rfl,
    C9_free_noop _ 100 30 (MemBlock.mk 30 70 true) (by decide) (by decide)
      (by decide) rfl⟩

/-- C10: before `mem_init` was ever called (and after `mem_deinit`), the pool
pointer is NULL, so `mem_alloc` returns NULL for every request — in particular
`mem_alloc(0)`'s "valid sentinel" (the pool base pointer) is NULL there, the
same value as the "no space" failure result, so the caller cannot tell the
degenerate zero-size success apart from an allocation failure. -/
theorem C10_uninitialized_alloc (ok : Bool) (n : Nat) (m0 : Nat → Nat)
    (st : MMState) :
    (mem_alloc ok n (initialState m0)).1 = none ∧
    (mem_alloc ok n (mem_deinit st)).1 = none := by
  constructor <;>
  · unfold mem_alloc
    by_cases hn : n = 0
    · rw [if_pos hn]
      rfl
    · rw [if_neg hn]
      rfl

/-- C6, counterexample: the claim asserts that `mem_free` on the zero-size
sentinel (the pool base, offset 0) is a no-op because it "does not match any
block's exact offset", even after the block it aliases has been allocated.
But the descriptor chain always has a block at offset 0, so the sentinel DOES
match: after `mem_init(100); mem_alloc(30)` the sentinel returned by
`mem_alloc(0)` is the base pointer (offset 0), and `mem_free` on it frees the
allocated 30-byte block (the chain collapses back to one 100-byte free
block). -/
theorem C6_counterexample :
    (mem_alloc true 0 (runOps (mem_init 100 (fun _ => 0))
      [MemOp.alloc true 30])).1 = some 0 ∧
    (mem_free (some 0) (runOps (mem_init 100 (fun _ => 0))
        [MemOp.alloc true 30])).block_list ≠
      (runOps (mem_init 100 (fun _ => 0)) [MemOp.alloc true 30]).block_list := by
  constructor
  · rfl
  · decide

/-- C6, amended: `mem_alloc(0)` returns the Arena's base offset as a sentinel
whenever the pool is initialized, but that sentinel always matches the
descriptor at offset 0, so `mem_free` on it is a no-op only while that
descriptor is free; once the block it aliases has been allocated for a real
size, `mem_free` on the sentinel frees that block (see the counterexample). -/
theorem C6_sentinel (ok : Bool) (st : MMState) (cap : Nat)
    (hpool : st.memory_pool = true)
    (hp : partitions 0 cap st.block_list = true)
    (hna : noAdjFree st.block_list = true)
    (hhf : headFree st.block_list = true) :
    mem_alloc ok 0 st = (some 0, st) ∧ mem_free (some 0) st = st := by
  constructor
  · unfold mem_alloc
    rw [if_pos rfl, hpool]
    rfl
  · cases hbl : st.block_list with
    | nil => rw [hbl] at hhf; simp [headFree] at hhf
    | cons b rest =>
      have hoff : b.offset = 0 := by
        rw [hbl] at hp
        exact (partitions_cons_iff.mp hp).1
      have hbf : b.is_free = true := by
        rw [hbl] at hhf
        simpa [headFree] using hhf
      have hfb : findBlock 0 st.block_list = some b := by
        rw [hbl]
        simp [findBlock, hoff]
      show { st with block_list := freeLoop 0 st.block_list } = st
      rw [freeLoop_id_of_free 0 st.block_list 0 cap b hp hna hfb hbf]

theorem C6_sentinel_witness :
    (mem_init 100 (fun _ => 0)).memory_pool = true ∧
    partitions 0 100 (mem_init 100 (fun _ => 0)).block_list = true ∧
    noAdjFree (mem_init 100 (fun _ => 0)).block_list = true ∧
    headFree (mem_init 100 (fun _ => 0)).block_list = true ∧
    (mem_alloc true 0 (mem_init 100 (fun _ => 0)) =
        (some 0, mem_init 100 (fun _ => 0)) ∧
      mem_free (some 0) (mem_init 100 (fun _ => 0)) = mem_init 100 (fun _ => 0)) :=
  ⟨rfl, by decide, rfl, rfl,
    C6_sentinel true (mem_init 100 (fun _ => 0)) 100 rfl (by decide) rfl rfl⟩

/-- C7, counterexample: the claim asserts that `mem_resize` on an unknown
handle returns a "not found" result distinguishable from the "no space"
result of a failed allocation.  In the code both are the NULL pointer: with a
fresh 10-byte pool, `mem_resize(pool+5, 3)` (no descriptor at offset 5) and,
after `mem_alloc(10)` fills the pool, `mem_resize(pool+0, 20)` (grow fails
for lack of space) return the same value, NULL. -/
theorem C7_counterexample :
    (mem_resize true (some 5) 3 (mem_init 10 (fun _ => 0))).1 =
      (mem_resize true (some 0) 20
        (runOps (mem_init 10 (fun _ => 0)) [MemOp.alloc true 10])).1 ∧
    (mem_resize true (some 5) 3 (mem_init 10 (fun _ => 0))).1 = none := by
  constructor
  · rfl
  · rfl

/-- C7, amended: `mem_resize` with a handle matching no descriptor returns
NULL — the same value as the "no space" result of a failed allocation, so the
two failures are NOT distinguishable by the return value — and it touches no
bytes and no chain state (the state is returned entirely unchanged). -/
theorem C7_resize_not_found (ok : Bool) (off n : Nat) (st : MMState)
    (hnf : findBlock off st.block_list = none) :
    mem_resize ok (some off) n st = (none, st) := by
  simp only [mem_resize]
  by_cases hn : n = 0
  · rw [if_pos hn]
    show (none, { st with block_list := freeLoop off st.block_list }) =
      ((none, st) : Option Nat × MMState)
    rw [freeLoop_id_of_not_mem off st.block_list (findBlock_eq_none.mp hnf)]
  · rw [if_neg hn, hnf]

theorem C7_resize_not_found_witness :
    findBlock 5 (mem_init 10 (fun _ => 0)).block_list = none ∧
    mem_resize true (some 5) 3 (mem_init 10 (fun _ => 0)) =
      (none, mem_init 10 (fun _ => 0)) :=
  ⟨by decide, C7_resize_not_found true 5 3 (mem_init 10 (fun _ => 0)) (by decide)⟩

/-- C8: when `mem_alloc(n)` selects a free block strictly larger than `n` but
the `malloc` for the split-off descriptor fails (`ok = false`), the operation
still succeeds, returning the block's offset and granting the caller the
whole selected block (it stays at its full size, marked allocated), rather
than returning a failure result. -/
theorem C8_alloc_split_fail (st : MMState) (n : Nat) (l₁ l₂ : List MemBlock)
    (b : MemBlock)
    (hl : st.block_list = l₁ ++ b :: l₂)
    (hfirst : ∀ c ∈ l₁, ¬(c.is_free = true ∧ n ≤ c.size))
    (hfree : b.is_free = true) (hn : 0 < n) (hlt : n < b.size) :
    mem_alloc false n st =
      (some b.offset,
        { st with block_list := l₁ ++ ⟨b.offset, b.size, false⟩ :: l₂ }) := by
  unfold mem_alloc
  rw [if_neg (by omega), hl,
    allocLoop_first false n l₁ b l₂ hfirst hfree (le_of_lt hlt)]
  rw [if_neg (fun hcon => Bool.false_ne_true hcon.2)]

theorem C8_alloc_split_fail_witness :
    (mem_init 100 (fun _ => 0)).block_list =
      [] ++ (⟨0, 100, true⟩ : MemBlock) :: [] ∧
    (∀ c ∈ ([] : List MemBlock), ¬(c.is_free = true ∧ 30 ≤ c.size)) ∧
    (MemBlock.mk 0 100 true).is_free = true ∧ 0 < 30 ∧ 30 < 100 ∧
    mem_alloc false 30 (mem_init 100 (fun _ => 0)) =
      (some 0,
        { mem_init 100 (fun _ => 0) with
            block_list := [] ++ (⟨0, 100, false⟩ : MemBlock) :: [] }) :=
  ⟨rfl, by decide, rfl, by decide, by decide,
    C8_alloc_split_fail (mem_init 100 (fun _ => 0)) 30 [] []
      (MemBlock.mk 0 100 true) rfl (by decide) rfl (by decide) (by decide)⟩

/-- C3: `mem_alloc(n)` with `n > 0` is first-fit.  Writing the chain as
`l₁ ++ b :: l₂` where `b` is the first free descriptor with size ≥ `n`
(nothing in `l₁` qualifies), the call returns `b`'s offset, `b` has the
smallest offset among all qualifying free blocks (the chain is sorted by the
partition invariant), and when `b.size > n` (and the descriptor `malloc`
succeeds) `b` is split into an allocated block of exactly `n` bytes followed
by a free remainder. -/
theorem C3_first_fit (st : MMState) (cap n : Nat) (l₁ l₂ : List MemBlock)
    (b : MemBlock)
    (hp : partitions 0 cap st.block_list = true)
    (hn : 0 < n)
    (hl : st.block_list = l₁ ++ b :: l₂)
    (hfirst : ∀ c ∈ l₁, ¬(c.is_free = true ∧ n ≤ c.size))
    (hfree : b.is_free = true) (hsz : n ≤ b.size) :
    (mem_alloc true n st).1 = some b.offset ∧
    (∀ c ∈ st.block_list, c.is_free = true → n ≤ c.size → b.offset ≤ c.offset) ∧
    (n < b.size →
      (mem_alloc true n st).2.block_list =
        l₁ ++ ⟨b.offset, n, false⟩ :: ⟨b.offset + n, b.size - n, true⟩ :: l₂) := by
  have hal := allocLoop_first true n l₁ b l₂ hfirst hfree hsz
  have hne : ¬ n = 0 := by omega
  refine ⟨?_, ?_, ?_⟩
  · unfold mem_alloc
    rw [if_neg hne, hl, hal]
    by_cases hs : n < b.size
    · rw [if_pos ⟨hs, rfl⟩]
    · rw [if_neg (fun hcon => hs hcon.1)]
  · intro c hc hcf hcsz
    rw [hl] at hc hp
    obtain ⟨mid, h1, h2⟩ := partitions_split l₁ (b :: l₂) 0 cap hp
    rw [partitions_cons_iff] at h2
    obtain ⟨hboff, hbs, h3⟩ := h2
    rcases List.mem_append.mp hc with hcl | hcr
    · exact absurd ⟨hcf, hcsz⟩ (hfirst c hcl)
    · rcases List.mem_cons.mp hcr with rfl | hcl₂
      · exact le_refl _
      · have := partitions_bounds l₂ (b.offset + b.size) cap h3 c hcl₂
        omega
  · intro hlt
    unfold mem_alloc
    rw [if_neg hne, hl, hal, if_pos ⟨hlt, rfl⟩]

theorem C3_first_fit_witness :
    partitions 0 100 (runOps (mem_init 100 (fun _ => 0))
      [MemOp.alloc true 10]).block_list = true ∧
    0 < 20 ∧
    (runOps (mem_init 100 (fun _ => 0)) [MemOp.alloc true 10]).block_list =
      [MemBlock.mk 0 10 false] ++ MemBlock.mk 10 90 true :: [] ∧
    (∀ c ∈ [MemBlock.mk 0 10 false], ¬(c.is_free = true ∧ 20 ≤ c.size)) ∧
    (MemBlock.mk 10 90 true).is_free = true ∧ 20 ≤ (MemBlock.mk 10 90 true).size ∧
    ((mem_alloc true 20 (runOps (mem_init 100 (fun _ => 0))
        [MemOp.alloc true 10])).1 = some (MemBlock.mk 10 90 true).offset ∧
      (∀ c ∈ (runOps (mem_init 100 (fun _ => 0))
          [MemOp.alloc true 10]).block_list,
        c.is_free = true → 20 ≤ c.size → (MemBlock.mk 10 90 true).offset ≤ c.offset) ∧
      (20 < (MemBlock.mk 10 90 true).size →
        (mem_alloc true 20 (runOps (mem_init 100 (fun _ => 0))
            [MemOp.alloc true 10])).2.block_list =
          [MemBlock.mk 0 10 false] ++ ⟨10, 20, false⟩ :: ⟨10 + 20, 90 - 20, true⟩ :: [])) :=
  ⟨by decide, by decide, by decide, by decide, rfl, by decide,
    C3_first_fit (runOps (mem_init 100 (fun _ => 0)) [MemOp.alloc true 10])
      100 20 [MemBlock.mk 0 10 false] [] (MemBlock.mk 10 90 true)
      (by decide) (by decide) (by decide) (by decide) rfl (by decide)⟩

theorem allocLoop_some_inv {ok : Bool} {n : Nat} :
    ∀ (l : List MemBlock) (noff : Nat) (l' : List MemBlock),
      allocLoop ok n l = some (noff, l') →
      ∃ l₁ b l₂, l = l₁ ++ b :: l₂ ∧
        (∀ c ∈ l₁, ¬(c.is_free = true ∧ n ≤ c.size)) ∧
        b.is_free = true ∧ n ≤ b.size ∧ noff = b.offset ∧
        ((n < b.size ∧ ok = true ∧
          l' = l₁ ++ ⟨b.offset, n, false⟩ :: ⟨b.offset + n, b.size - n, true⟩ :: l₂) ∨
         (¬(n < b.size ∧ ok = true) ∧ l' = l₁ ++ ⟨b.offset, b.size, false⟩ :: l₂)) := by
  intro l
  induction l with
  | nil => intro noff l' h; simp [allocLoop] at h
  | cons b rest ih =>
    intro noff l' h
    by_cases hb : b.is_free = true ∧ n ≤ b.size
    · simp only [allocLoop, if_pos hb] at h
      by_cases hs : n < b.size ∧ ok = true
      · rw [if_pos hs] at h
        simp only [Option.some.injEq, Prod.mk.injEq] at h
        obtain ⟨h1, h2⟩ := h
        exact ⟨[], b, rest, rfl, by simp, hb.1, hb.2, h1.symm,
          Or.inl ⟨hs.1, hs.2, h2.symm⟩⟩
      · rw [if_neg hs] at h
        simp only [Option.some.injEq, Prod.mk.injEq] at h
        obtain ⟨h1, h2⟩ := h
        exact ⟨[], b, rest, rfl, by simp, hb.1, hb.2, h1.symm,
          Or.inr ⟨hs, h2.symm⟩⟩
    · simp only [allocLoop, if_neg hb] at h
      cases hal : allocLoop ok n rest with
      | none => rw [hal] at h; simp at h
      | some p =>
        obtain ⟨r, rest'⟩ := p
        rw [hal] at h
        simp only [Option.some.injEq, Prod.mk.injEq] at h
        obtain ⟨h1, h2⟩ := h
        obtain ⟨l₁, s, l₂, hsplit, hfirst, hsf, hss, hroff, hcase⟩ :=
          ih r rest' hal
        refine ⟨b :: l₁, s, l₂, by rw [hsplit]; rfl, ?_, hsf, hss,
          by rw [← h1]; exact hroff, ?_⟩
        · intro c hc
          rcases List.mem_cons.mp hc with rfl | hc'
          · exact hb
          · exact hfirst c hc'
        · rcases hcase with ⟨hc1, hc2, hc3⟩ | ⟨hc1, hc3⟩
          · exact Or.inl ⟨hc1, hc2, by rw [← h2, hc3]; rfl⟩
          · exact Or.inr ⟨hc1, by rw [← h2, hc3]; rfl⟩

/-- C5: when `mem_resize(h, n)` finds an allocated block `b` of size `m < n`
and the internal first-fit allocation succeeds (returning offset `noff`), the
call returns `noff`; `noff` differs from `h`'s offset; the new `n`-byte region
does not overlap the old block (the old block is still marked allocated during
the internal allocation); exactly `m` bytes are copied from the old offset to
the new offset (bytes outside the copied window keep their old values); and
only afterwards is the old block freed — the final chain contains a free
descriptor covering the old block's whole extent. -/
theorem C5_resize_grow (ok : Bool) (st : MMState) (cap off n noff : Nat)
    (b : MemBlock)
    (hp : partitions 0 cap st.block_list = true)
    (hfb : findBlock off st.block_list = some b)
    (hbal : b.is_free = false)
    (hlt : b.size < n)
    (hsucc : (mem_alloc ok n st).1 = some noff) :
    (mem_resize ok (some off) n st).1 = some noff ∧
    noff ≠ off ∧
    (noff + n ≤ off ∨ off + b.size ≤ noff) ∧
    (∀ k, k < b.size →
      (mem_resize ok (some off) n st).2.mem (noff + k) = st.mem (off + k)) ∧
    (∀ i, i < noff ∨ noff + b.size ≤ i →
      (mem_resize ok (some off) n st).2.mem i = st.mem i) ∧
    (∃ cv, cv ∈ (mem_resize ok (some off) n st).2.block_list ∧
      cv.is_free = true ∧ cv.offset ≤ off ∧ off + b.size ≤ cv.offset + cv.size) := by
  have hn : ¬ n = 0 := by omega
  have hsz' : ¬ n ≤ b.size := by omega
  have hboff : b.offset = off := (findBlock_eq_some hfb).2
  have hinv : ∃ bl, allocLoop ok n st.block_list = some (noff, bl) := by
    unfold mem_alloc at hsucc
    rw [if_neg hn] at hsucc
    cases hal : allocLoop ok n st.block_list with
    | none => rw [hal] at hsucc; exact absurd hsucc (by simp)
    | some p =>
      obtain ⟨r, bl⟩ := p
      rw [hal] at hsucc
      have hr : some r = some noff := hsucc
      obtain rfl := Option.some.inj hr
      exact ⟨bl, rfl⟩
  obtain ⟨bl, hal⟩ := hinv
  have hma2 : mem_alloc ok n st = (some noff, { st with block_list := bl }) := by
    unfold mem_alloc
    rw [if_neg hn, hal]
  have hres : mem_resize ok (some off) n st =
      (some noff, mem_free (some off)
        { st with block_list := bl, mem := memcpy st.mem noff off b.size }) := by
    simp only [mem_resize, if_neg hn, hfb, if_neg hsz', hma2]
  obtain ⟨m₁, s, m₂, hsplit, hfirstm, hsf, hss, hnoffeq, hcase⟩ :=
    allocLoop_some_inv st.block_list noff bl hal
  have hbs_ne : b ≠ s := by
    intro he
    rw [he] at hbal
    rw [hbal] at hsf
    exact Bool.false_ne_true hsf
  have hp' := hp
  rw [hsplit] at hp'
  obtain ⟨mid, hpm₁, hps⟩ := partitions_split m₁ (s :: m₂) 0 cap hp'
  rw [partitions_cons_iff] at hps
  obtain ⟨hsoff, hssz, hpm₂⟩ := hps
  have hkey : (noff + n ≤ off ∨ off + b.size ≤ noff) ∧ noff ≠ off ∧
      findBlock off bl = some b := by
    cases hm₁ : findBlock off m₁ with
    | some b' =>
      have hb' : findBlock off st.block_list = some b' := by
        rw [hsplit]
        exact findBlock_append_of_some _ hm₁
      rw [hfb] at hb'
      obtain rfl := Option.some.inj hb'
      have hbm₁ : b ∈ m₁ := (findBlock_eq_some hm₁).1
      have hbnd := partitions_bounds m₁ 0 mid hpm₁ b hbm₁
      have hside : off + b.size ≤ noff := by omega
      refine ⟨Or.inr hside, by omega, ?_⟩
      rcases hcase with ⟨-, -, hbl⟩ | ⟨-, hbl⟩ <;>
        · rw [hbl]
          exact findBlock_append_of_some _ hm₁
    | none =>
      have hfb' := hfb
      rw [hsplit] at hfb'
      rw [findBlock_append_of_none _ hm₁] at hfb'
      have hsne : ¬ s.offset = off := by
        intro he
        simp only [findBlock, if_pos he] at hfb'
        exact hbs_ne (Option.some.inj hfb').symm
      simp only [findBlock, if_neg hsne] at hfb'
      have hbm₂ : b ∈ m₂ := (findBlock_eq_some hfb').1
      have hbnd := partitions_bounds m₂ (s.offset + s.size) cap hpm₂ b hbm₂
      have hside : noff + n ≤ off := by omega
      refine ⟨Or.inl hside, by omega, ?_⟩
      rcases hcase with ⟨hc1, -, hbl⟩ | ⟨-, hbl⟩
      · rw [hbl, findBlock_append_of_none _ hm₁]
        have h1 : ¬ (⟨s.offset, n, false⟩ : MemBlock).offset = off := by
          simp only
          omega
        have h2 : ¬ (⟨s.offset + n, s.size - n, true⟩ : MemBlock).offset = off := by
          simp only
          omega
        simp only [findBlock, if_neg h1, if_neg h2]
        exact hfb'
      · rw [hbl, findBlock_append_of_none _ hm₁]
        have h1 : ¬ (⟨s.offset, s.size, false⟩ : MemBlock).offset = off := by
          simp only
          omega
        simp only [findBlock, if_neg h1]
        exact hfb'
  obtain ⟨hdisj, hne2, hfbbl⟩ := hkey
  obtain ⟨cv, hcvmem, hcvf, hcv1, hcv2⟩ := freeLoop_covers off bl b hfbbl
  rw [hres]
  refine ⟨rfl, hne2, hdisj, ?_, ?_, ?_⟩
  · intro k hk
    show memcpy st.mem noff off b.size (noff + k) = st.mem (off + k)
    unfold memcpy
    rw [if_pos ⟨Nat.le_add_right _ _, by omega⟩]
    congr 1
    omega
  · intro i hi
    show memcpy st.mem noff off b.size i = st.mem i
    unfold memcpy
    rw [if_neg (by omega)]
  · refine ⟨cv, ?_, hcvf, ?_, ?_⟩
    · show cv ∈ freeLoop off bl
      exact hcvmem
    · omega
    · omega

theorem C5_resize_grow_witness :
    partitions 0 100 (runOps (mem_init 100 (fun _ => 0))
      [MemOp.alloc true 10]).block_list = true ∧
    findBlock 0 (runOps (mem_init 100 (fun _ => 0))
      [MemOp.alloc true 10]).block_list = some (MemBlock.mk 0 10 false) ∧
    (MemBlock.mk 0 10 false).is_free = false ∧
    (MemBlock.mk 0 10 false).size < 20 ∧
    (mem_alloc true 20 (runOps (mem_init 100 (fun _ => 0))
      [MemOp.alloc true 10])).1 = some 10 ∧
    ((mem_resize true (some 0) 20 (runOps (mem_init 100 (fun _ => 0))
        [MemOp.alloc true 10])).1 = some 10 ∧
      (10 : Nat) ≠ 0 ∧
      (10 + 20 ≤ 0 ∨ 0 + (MemBlock.mk 0 10 false).size ≤ 10) ∧
      (∀ k, k < (MemBlock.mk 0 10 false).size →
        (mem_resize true (some 0) 20 (runOps (mem_init 100 (fun _ => 0))
          [MemOp.alloc true 10])).2.mem (10 + k) =
        (runOps (mem_init 100 (fun _ => 0)) [MemOp.alloc true 10]).mem (0 + k)) ∧
      (∀ i, i < 10 ∨ 10 + (MemBlock.mk 0 10 false).size ≤ i →
        (mem_resize true (some 0) 20 (runOps (mem_init 100 (fun _ => 0))
          [MemOp.alloc true 10])).2.mem i =
        (runOps (mem_init 100 (fun _ => 0)) [MemOp.alloc true 10]).mem i) ∧
      (∃ cv, cv ∈ (mem_resize true (some 0) 20 (runOps (mem_init 100 (fun _ => 0))
          [MemOp.alloc true 10])).2.block_list ∧
        cv.is_free = true ∧ cv.offset ≤ 0 ∧
        0 + (MemBlock.mk 0 10 false).size ≤ cv.offset + cv.size)) :=
  ⟨by decide, by decide, rfl, by decide, by decide,
    C5_resize_grow true (runOps (mem_init 100 (fun _ => 0)) [MemOp.alloc true 10])
      100 0 20 10 (MemBlock.mk 0 10 false) (by decide) (by decide) rfl
      (by decide) (by decide)⟩

/-- C4: when `mem_resize(h, n)` finds a block of size `< n` and no free block
of size at least `n` exists anywhere in the chain, the internal fresh
allocation fails, the call returns NULL (the "no space" result), and the whole
state — every descriptor (offset, size, allocated status) and every pool
byte — is returned unchanged. -/
theorem C4_resize_grow_fail (ok : Bool) (st : MMState) (off n : Nat)
    (b : MemBlock)
    (hfb : findBlock off st.block_list = some b)
    (hbal : b.is_free = false)
    (hlt : b.size < n)
    (hnofree : ∀ c ∈ st.block_list, c.is_free = true → c.size < n) :
    mem_resize ok (some off) n st = (none, st) := by
  have hn : ¬ n = 0 := by omega
  have hsz' : ¬ n ≤ b.size := by omega
  have hnone : allocLoop ok n st.block_list = none :=
    allocLoop_eq_none.mpr
      (fun c hc hcon => Nat.not_le.mpr (hnofree c hc hcon.1) hcon.2)
  have hma : mem_alloc ok n st = (none, st) := by
    unfold mem_alloc
    rw [if_neg hn, hnone]
  simp only [mem_resize, if_neg hn, hfb, if_neg hsz', hma]

theorem C4_resize_grow_fail_witness :
    findBlock 0 (runOps (mem_init 10 (fun _ => 0))
      [MemOp.alloc true 10]).block_list = some (MemBlock.mk 0 10 false) ∧
    (MemBlock.mk 0 10 false).is_free = false ∧
    (MemBlock.mk 0 10 false).size < 20 ∧
    (∀ c ∈ (runOps (mem_init 10 (fun _ => 0))
        [MemOp.alloc true 10]).block_list, c.is_free = true → c.size < 20) ∧
    mem_resize true (some 0) 20 (runOps (mem_init 10 (fun _ => 0))
        [MemOp.alloc true 10]) =
      (none, runOps (mem_init 10 (fun _ => 0)) [MemOp.alloc true 10]) :=
  ⟨by decide, rfl, by decide, by decide,
    C4_resize_grow_fail true (runOps (mem_init 10 (fun _ => 0))
        [MemOp.alloc true 10]) 0 20 (MemBlock.mk 0 10 false)
      (by decide) rfl (by decide) (by decide)⟩

